import Mathlib

/-!
Verification of the source-tree aggregation scripts
(`project_as_text copy.py` and `project_as_text_by_modules.py`).

The scripts walk a source directory tree with `os.walk`, prune excluded
directory names before descending, filter files by an extension allow-list,
and copy file contents into destination files according to one of three
layouts:

* single-file mode (`save_files_as_text` with `single_file=True`): all
  contents concatenated into one destination file, each entry with a
  header line and a twenty-dash separator;
* per-file mode (`save_files_as_text` with `single_file=False`): each
  file written verbatim to its own `<name>.txt` in a flat destination
  directory (truncating writes);
* per-module mode (`save_files_as_text_by_modules`): root-level files as
  in per-file mode; files under a subdirectory are appended to one
  destination file named after the first component of their relative
  path, each entry annotated with the relative path and a `---` line.

The embedding models the file system as a finite tree whose nodes carry
directory names, files and subdirectories.  Reading a file yields either
its decoded text, a decode failure (`UnicodeDecodeError`) or another
error (`Exception`), so the scripts' try/except skip logic is a total
function.  Destination effects are modelled as a list of write/append
operations applied to a destination state (a map from destination file
name to current content); opening a file in append mode creates it with
empty content when absent, and a `'w'` open truncates.
-/

/-- Result of `open(path).read()` on a source file: decoded text, a
`UnicodeDecodeError`, or any other exception (with its message). -/
inductive ReadResult where
  | ok (content : String)
  | decodeError
  | ioError (msg : String)
deriving DecidableEq

/-- A source file: its base name and what reading it yields. -/
structure SrcFile where
  name : String
  read : ReadResult
deriving DecidableEq

mutual
/-- A directory in the source tree: name, subdirectories, files. -/
inductive Dir where
  | node (name : String) (subdirs : DirList) (files : List SrcFile)
deriving DecidableEq

/-- A list of sibling directories (mutual with `Dir`). -/
inductive DirList where
  | nil
  | cons (d : Dir) (ds : DirList)
deriving DecidableEq
end

/-- Name of a directory node. -/
def Dir.dname : Dir → String
  | .node n _ _ => n

/-- One `os.walk` yield: the directory's path relative to the source root
(as a list of components) and its direct files. -/
structure WalkEntry where
  path : List String
  files : List SrcFile
deriving DecidableEq

mutual
/-- `os.walk(src_dir)` with the scripts' pruning
`dirs[:] = [d for d in dirs if d not in exclude_dirs]`: yields the
current directory, then recursively the non-excluded subdirectories in
order.  Excluded subtrees are pruned before descending, so they are
never visited. -/
def Dir.walk (excl : List String) (path : List String) : Dir → List WalkEntry
  | .node _ subdirs files => ⟨path, files⟩ :: DirList.walk excl path subdirs

/-- Walk of a sibling list: each non-excluded directory contributes its
walk, an excluded one contributes nothing. -/
def DirList.walk (excl : List String) (path : List String) : DirList → List WalkEntry
  | .nil => []
  | .cons d ds =>
      (if excl.contains d.dname then [] else d.walk excl (path ++ [d.dname]))
        ++ DirList.walk excl path ds
end

/-- Python `name.endswith(suffix)`. -/
def ends_with (s p : String) : Bool := p.data.isSuffixOf s.data

/-- The hardcoded extension allow-list of both scripts. -/
def allowed_extensions : List String :=
  [".ts", ".java", ".properties", ".xml", ".py", ".md", ".sql"]

/-- `file.endswith(('.ts', '.java', '.properties', '.xml', '.py', '.md', '.sql'))`. -/
def eligible (name : String) : Bool :=
  allowed_extensions.any fun ext => ends_with name ext

/-- Python `"-" * 20`, the single-file separator line. -/
def dashes20 : String := String.mk (List.replicate 20 '-')

/-- `os.path.join` / `os.path.relpath` over path components.  Path
components on a file system never contain the separator, so joining and
splitting are inverse to each other and paths are modelled as component
lists joined with a single separator. -/
def path_join (parts : List String) : String := String.intercalate "/" parts

/-- `os.path.join(root, file)` where `root` is the walk's current
directory (source root joined with the entry's relative components). -/
def src_path (src_dir : String) (path : List String) (name : String) : String :=
  path_join (src_dir :: (path ++ [name]))

/-- Diagnostic printed on `UnicodeDecodeError`. -/
def skip_message (p : String) : String :=
  "Skipping binary or incompatible file: " ++ p

/-- Diagnostic printed on any other exception. -/
def error_message (p e : String) : String :=
  "Error processing file " ++ p ++ ": " ++ e

/-- A destination-file effect: `'w'`-mode write (truncate) or `'a'`-mode
append (create empty first when absent). -/
inductive WriteOp where
  | write (name : String) (content : String)
  | append (name : String) (content : String)
deriving DecidableEq

/-- Destination file the operation touches. -/
def WriteOp.key : WriteOp → String
  | .write n _ => n
  | .append n _ => n

/-- Whether the operation is a truncating write. -/
def WriteOp.isWrite : WriteOp → Bool
  | .write _ _ => true
  | .append _ _ => false

/-- The destination directory: which text files exist and their content. -/
def DestState := String → Option String

/-- A destination with no files. -/
def emptyState : DestState := fun _ => none

/-- Apply one effect: a write truncates (the file now holds exactly the
written content); an append creates the file empty when absent and adds
the content at the end. -/
def applyOp (s : DestState) : WriteOp → DestState
  | .write n c => fun k => if k = n then some c else s k
  | .append n c => fun k => if k = n then some ((s n).getD "" ++ c) else s k

/-- Run a list of effects in order against a destination state. -/
def runOps (s : DestState) (ops : List WriteOp) : DestState := ops.foldl applyOp s

/-- Body of the single-file loop of `save_files_as_text`
(`single_file=True`): an eligible file that reads correctly appends its
header, content and separator to the destination stream; a failing read
prints a diagnostic; an ineligible file is skipped silently. -/
def single_step (src_dir : String) (path : List String)
    (acc : String × List String) (f : SrcFile) : String × List String :=
  if eligible f.name then
    match f.read with
    | .ok content =>
        (acc.1 ++ f.name ++ ".txt" ++ "\n\n" ++ content ++ "\n" ++ dashes20 ++ "\n", acc.2)
    | .decodeError => (acc.1, acc.2 ++ [skip_message (src_path src_dir path f.name)])
    | .ioError e => (acc.1, acc.2 ++ [error_message (src_path src_dir path f.name) e])
  else acc

/-- Body of the per-file loop of `save_files_as_text`
(`single_file=False`): an eligible file that reads correctly is written
with truncation to `<name>.txt`; failures print a diagnostic. -/
def per_file_step (src_dir : String) (path : List String)
    (acc : List WriteOp × List String) (f : SrcFile) : List WriteOp × List String :=
  if eligible f.name then
    match f.read with
    | .ok content => (acc.1 ++ [.write (f.name ++ ".txt") content], acc.2)
    | .decodeError => (acc.1, acc.2 ++ [skip_message (src_path src_dir path f.name)])
    | .ioError e => (acc.1, acc.2 ++ [error_message (src_path src_dir path f.name) e])
  else acc

/-- `save_files_as_text(src_dir, dest_file_path, exclude_dirs, single_file)`
from `project_as_text copy.py`.  Returns the destination effects and the
printed diagnostics.  In single-file mode the destination file is opened
once with `'w'` (truncation) and holds the concatenated entries; in
per-file mode each eligible file is written with `'w'` to its own
`<name>.txt`. -/
def save_files_as_text (src_dir dest_file_path : String) (exclude_dirs : List String)
    (tree : Dir) (single_file : Bool) : List WriteOp × List String :=
  if single_file then
    let r := (tree.walk exclude_dirs []).foldl
      (fun acc e => e.files.foldl (single_step src_dir e.path) acc) ("", [])
    ([.write dest_file_path r.1], r.2)
  else
    (tree.walk exclude_dirs []).foldl
      (fun acc e => e.files.foldl (per_file_step src_dir e.path) acc) ([], [])

/-- Body of the subfolder loop of `save_files_as_text` from
`project_as_text_by_modules.py`: an eligible file that reads correctly
appends its relative path, a blank line, its content and a `---` line to
the open subfolder stream. -/
def module_entry_step (src_dir : String) (path : List String)
    (acc : String × List String) (f : SrcFile) : String × List String :=
  if eligible f.name then
    match f.read with
    | .ok content =>
        (acc.1 ++ path_join (path ++ [f.name]) ++ "\n\n" ++ content ++ "\n---\n", acc.2)
    | .decodeError => (acc.1, acc.2 ++ [skip_message (src_path src_dir path f.name)])
    | .ioError e => (acc.1, acc.2 ++ [error_message (src_path src_dir path f.name) e])
  else acc

/-- `os.path.relpath(root, src_dir).split(os.sep)[0]`: the first
component of the walk entry's relative path.  Components never contain
the separator, so splitting the joined relative path at the separator
recovers the component list and its first element is the head. -/
def first_component (path : List String) : String := path.headD ""

/-- `save_files_as_text(src_dir, dest_dir, exclude_dirs)` from
`project_as_text_by_modules.py`.  The root directory's files are handled
as in per-file mode; every other visited directory opens
`<first path component>.txt` in `'a'` mode (creating it empty when
absent) and appends one annotated entry per eligible readable file. -/
def save_files_as_text_by_modules (src_dir : String) (exclude_dirs : List String)
    (tree : Dir) : List WriteOp × List String :=
  (tree.walk exclude_dirs []).foldl
    (fun acc e =>
      match e.path with
      | [] => e.files.foldl (per_file_step src_dir []) acc
      | _ :: _ =>
          let r := e.files.foldl (module_entry_step src_dir e.path) ("", [])
          (acc.1 ++ [.append (first_component e.path ++ ".txt") r.1], acc.2 ++ r.2))
    ([], [])

/-- Concatenation of a list of strings in order. -/
def joinAll : List String → String
  | [] => ""
  | s :: l => s ++ joinAll l

/-- What one file contributes to the single-file destination stream. -/
def emit_str (f : SrcFile) : String :=
  if eligible f.name then
    match f.read with
    | .ok c => f.name ++ ".txt" ++ "\n\n" ++ c ++ "\n" ++ dashes20 ++ "\n"
    | _ => ""
  else ""

/-- What one file contributes to the diagnostics (stdout). -/
def emit_diag (src_dir : String) (path : List String) (f : SrcFile) : List String :=
  if eligible f.name then
    match f.read with
    | .ok _ => []
    | .decodeError => [skip_message (src_path src_dir path f.name)]
    | .ioError e => [error_message (src_path src_dir path f.name) e]
  else []

/-- What one file contributes to the per-file destination effects. -/
def emit_write (f : SrcFile) : List WriteOp :=
  if eligible f.name then
    match f.read with
    | .ok c => [.write (f.name ++ ".txt") c]
    | _ => []
  else []

/-- What one file contributes to its module's destination file. -/
def emit_module (path : List String) (f : SrcFile) : String :=
  if eligible f.name then
    match f.read with
    | .ok c => path_join (path ++ [f.name]) ++ "\n\n" ++ c ++ "\n---\n"
    | _ => ""
  else ""

/-- An eligible file that read correctly: where it was found, its base
name and its decoded content. -/
structure Found where
  path : List String
  name : String
  content : String
deriving DecidableEq

/-- The eligible, correctly-reading files among a directory's files. -/
def found_of_files (path : List String) (files : List SrcFile) : List Found :=
  files.filterMap fun f =>
    if eligible f.name then
      match f.read with
      | .ok c => some ⟨path, f.name, c⟩
      | _ => none
    else none

/-- The eligible, correctly-reading files of one walk entry. -/
def found_of_entry (e : WalkEntry) : List Found := found_of_files e.path e.files

/-- All eligible, correctly-reading files under the source root outside
excluded directories, in traversal order. -/
def found_files (excl : List String) (t : Dir) : List Found :=
  (t.walk excl []).flatMap found_of_entry

/-- An eligible file whose read failed, with where it was found. -/
def failing_of_files (path : List String) (files : List SrcFile) :
    List (List String × SrcFile) :=
  files.filterMap fun f =>
    if eligible f.name then
      match f.read with
      | .ok _ => none
      | _ => some (path, f)
    else none

/-- The diagnostic the scripts print for a failing eligible file. -/
def read_diag (src_dir : String) (path : List String) (f : SrcFile) : String :=
  match f.read with
  | .ioError e => error_message (src_path src_dir path f.name) e
  | _ => skip_message (src_path src_dir path f.name)

/-- All diagnostics of a run, in traversal order. -/
def all_diags (src_dir : String) (excl : List String) (t : Dir) : List String :=
  (t.walk excl []).flatMap fun e => e.files.flatMap (emit_diag src_dir e.path)

/-- All failing eligible files of a run, in traversal order. -/
def failing_files (excl : List String) (t : Dir) : List (List String × SrcFile) :=
  (t.walk excl []).flatMap fun e => failing_of_files e.path e.files

/-- Single-file entry layout for one found file: header line, blank
line, content, line break, separator line, line break. -/
def fmt_single (fd : Found) : String :=
  fd.name ++ ".txt" ++ "\n\n" ++ fd.content ++ "\n" ++ dashes20 ++ "\n"

/-- Per-module entry layout for one found file: relative path, blank
line, content, line break, `---` line, line break. -/
def fmt_module (fd : Found) : String :=
  path_join (fd.path ++ [fd.name]) ++ "\n\n" ++ fd.content ++ "\n---\n"

/-- The per-file destination effect of one found file. -/
def fmt_write (fd : Found) : WriteOp := .write (fd.name ++ ".txt") fd.content

/-- The destination effects one walk entry contributes in per-module
mode: per-file writes at the root, otherwise one append (of all its
entries, possibly empty) to the file named after the first component. -/
def bm_ops (e : WalkEntry) : List WriteOp :=
  match e.path with
  | [] => (found_of_entry e).map fmt_write
  | _ :: _ =>
      [.append (first_component e.path ++ ".txt")
        (joinAll ((found_of_entry e).map fmt_module))]

theorem single_step_eq (src : String) (path : List String)
    (acc : String × List String) (f : SrcFile) :
    single_step src path acc f = (acc.1 ++ emit_str f, acc.2 ++ emit_diag src path f) := by
  unfold single_step emit_str emit_diag
  cases h : eligible f.name
  · simp
  · cases hr : f.read <;> simp [String.append_assoc]

theorem per_file_step_eq (src : String) (path : List String)
    (acc : List WriteOp × List String) (f : SrcFile) :
    per_file_step src path acc f = (acc.1 ++ emit_write f, acc.2 ++ emit_diag src path f) := by
  unfold per_file_step emit_write emit_diag
  cases h : eligible f.name
  · simp
  · cases hr : f.read <;> simp

theorem module_entry_step_eq (src : String) (path : List String)
    (acc : String × List String) (f : SrcFile) :
    module_entry_step src path acc f
      = (acc.1 ++ emit_module path f, acc.2 ++ emit_diag src path f) := by
  unfold module_entry_step emit_module emit_diag
  cases h : eligible f.name
  · simp
  · cases hr : f.read <;> simp [String.append_assoc]

theorem foldl_two_channel_str {α : Type} (g : α → String) (h : α → List String)
    (l : List α) (a : String) (b : List String) :
    l.foldl (fun acc f => (acc.1 ++ g f, acc.2 ++ h f)) (a, b)
      = (a ++ joinAll (l.map g), b ++ l.flatMap h) := by
  induction l generalizing a b with
  | nil => simp [joinAll]
  | cons x xs ih =>
      simp only [List.foldl_cons, List.map_cons, List.flatMap_cons, joinAll]
      rw [ih]
      simp [String.append_assoc, List.append_assoc]

theorem foldl_two_channel_ops {α : Type} (g : α → List WriteOp) (h : α → List String)
    (l : List α) (a : List WriteOp) (b : List String) :
    l.foldl (fun acc f => (acc.1 ++ g f, acc.2 ++ h f)) (a, b)
      = (a ++ l.flatMap g, b ++ l.flatMap h) := by
  induction l generalizing a b with
  | nil => simp
  | cons x xs ih =>
      simp only [List.foldl_cons, List.flatMap_cons]
      rw [ih]
      simp [List.append_assoc]

theorem found_of_files_append (path : List String) (l₁ l₂ : List SrcFile) :
    found_of_files path (l₁ ++ l₂) = found_of_files path l₁ ++ found_of_files path l₂ := by
  simp [found_of_files]

theorem joinAll_append (l₁ l₂ : List String) :
    joinAll (l₁ ++ l₂) = joinAll l₁ ++ joinAll l₂ := by
  induction l₁ with
  | nil => simp [joinAll]
  | cons x xs ih => simp [joinAll, ih, String.append_assoc]

theorem joinAll_flatMap {α : Type} (g : α → List String) (l : List α) :
    joinAll (l.flatMap g) = joinAll (l.map fun x => joinAll (g x)) := by
  induction l with
  | nil => simp [joinAll]
  | cons x xs ih => simp [joinAll, joinAll_append, ih]

theorem files_emit_str_eq (path : List String) (files : List SrcFile) :
    joinAll (files.map emit_str) = joinAll ((found_of_files path files).map fmt_single) := by
  induction files with
  | nil => simp [found_of_files]
  | cons f fs ih =>
      simp only [List.map_cons, joinAll, found_of_files, List.filterMap_cons]
      unfold emit_str
      cases h : eligible f.name
      · simpa [joinAll] using ih
      · cases hr : f.read
        · simpa [fmt_single, joinAll, found_of_files] using congrArg (_ ++ ·) ih
        · simpa [joinAll, found_of_files] using ih
        · simpa [joinAll, found_of_files] using ih

theorem files_emit_write_eq (path : List String) (files : List SrcFile) :
    files.flatMap emit_write = (found_of_files path files).map fmt_write := by
  induction files with
  | nil => simp [found_of_files]
  | cons f fs ih =>
      simp only [List.flatMap_cons, found_of_files, List.filterMap_cons]
      unfold emit_write
      cases h : eligible f.name
      · simpa [found_of_files] using ih
      · cases hr : f.read
        · simpa [fmt_write, found_of_files] using ih
        · simpa [found_of_files] using ih
        · simpa [found_of_files] using ih

theorem files_emit_module_eq (path : List String) (files : List SrcFile) :
    joinAll (files.map (emit_module path))
      = joinAll ((found_of_files path files).map fmt_module) := by
  induction files with
  | nil => simp [found_of_files]
  | cons f fs ih =>
      simp only [List.map_cons, joinAll, found_of_files, List.filterMap_cons]
      unfold emit_module
      cases h : eligible f.name
      · simpa [joinAll] using ih
      · cases hr : f.read
        · simpa [fmt_module, joinAll, found_of_files] using congrArg (_ ++ ·) ih
        · simpa [joinAll, found_of_files] using ih
        · simpa [joinAll, found_of_files] using ih

theorem files_emit_diag_eq (src : String) (path : List String) (files : List SrcFile) :
    files.flatMap (emit_diag src path)
      = (failing_of_files path files).map fun q => read_diag src q.1 q.2 := by
  induction files with
  | nil => simp [failing_of_files]
  | cons f fs ih =>
      simp only [List.flatMap_cons, failing_of_files, List.filterMap_cons]
      unfold emit_diag
      cases h : eligible f.name
      · simpa [failing_of_files] using ih
      · cases hr : f.read
        · simpa [failing_of_files] using ih
        · simpa [read_diag, hr, failing_of_files] using ih
        · simpa [read_diag, hr, failing_of_files] using ih

theorem save_single_eq (src dest : String) (excl : List String) (t : Dir) :
    save_files_as_text src dest excl t true
      = ([.write dest (joinAll ((t.walk excl []).map
            fun e => joinAll (e.files.map emit_str)))],
         all_diags src excl t) := by
  unfold save_files_as_text all_diags
  simp only [if_pos]
  have h2 : (fun (acc : String × List String) (e : WalkEntry) =>
        e.files.foldl (single_step src e.path) acc)
      = fun acc e => (acc.1 ++ joinAll (e.files.map emit_str),
          acc.2 ++ e.files.flatMap (emit_diag src e.path)) := by
    funext acc e
    have hs : single_step src e.path
        = fun a f => (a.1 ++ emit_str f, a.2 ++ emit_diag src e.path f) := by
      funext a f; exact single_step_eq src e.path a f
    rw [hs]
    exact foldl_two_channel_str _ _ e.files acc.1 acc.2
  rw [h2, foldl_two_channel_str]
  simp

theorem save_per_file_eq (src dest : String) (excl : List String) (t : Dir) :
    save_files_as_text src dest excl t false
      = ((t.walk excl []).flatMap (fun e => e.files.flatMap emit_write),
         all_diags src excl t) := by
  unfold save_files_as_text all_diags
  simp only [Bool.false_eq_true, if_false]
  have h2 : (fun (acc : List WriteOp × List String) (e : WalkEntry) =>
        e.files.foldl (per_file_step src e.path) acc)
      = fun acc e => (acc.1 ++ e.files.flatMap emit_write,
          acc.2 ++ e.files.flatMap (emit_diag src e.path)) := by
    funext acc e
    have hs : per_file_step src e.path
        = fun a f => (a.1 ++ emit_write f, a.2 ++ emit_diag src e.path f) := by
      funext a f; exact per_file_step_eq src e.path a f
    rw [hs]
    exact foldl_two_channel_ops _ _ e.files acc.1 acc.2
  rw [h2, foldl_two_channel_ops]
  simp

theorem save_by_modules_eq (src : String) (excl : List String) (t : Dir) :
    save_files_as_text_by_modules src excl t
      = ((t.walk excl []).flatMap bm_ops, all_diags src excl t) := by
  unfold save_files_as_text_by_modules all_diags
  have h2 : (fun (acc : List WriteOp × List String) (e : WalkEntry) =>
        match e.path with
        | [] => e.files.foldl (per_file_step src []) acc
        | _ :: _ =>
            let r := e.files.foldl (module_entry_step src e.path) ("", [])
            (acc.1 ++ [.append (first_component e.path ++ ".txt") r.1], acc.2 ++ r.2))
      = fun acc e => (acc.1 ++ bm_ops e,
          acc.2 ++ e.files.flatMap (emit_diag src e.path)) := by
    funext acc e
    cases hp : e.path with
    | nil =>
        simp only [hp]
        have hs : per_file_step src []
            = fun a f => (a.1 ++ emit_write f, a.2 ++ emit_diag src [] f) := by
          funext a f; exact per_file_step_eq src [] a f
        rw [hs, foldl_two_channel_ops]
        have hb : bm_ops e = e.files.flatMap emit_write := by
          unfold bm_ops
          rw [hp]
          rw [files_emit_write_eq e.path e.files]
          unfold found_of_entry
          rfl
        rw [hb]
    | cons seg rest =>
        simp only [hp]
        have hs : module_entry_step src (seg :: rest)
            = fun a f => (a.1 ++ emit_module (seg :: rest) f,
                a.2 ++ emit_diag src (seg :: rest) f) := by
          funext a f; exact module_entry_step_eq src (seg :: rest) a f
        have hb : bm_ops e
            = [.append (first_component (seg :: rest) ++ ".txt")
                (joinAll (e.files.map (emit_module (seg :: rest))))] := by
          unfold bm_ops found_of_entry
          rw [hp]
          rw [← files_emit_module_eq (seg :: rest) e.files]
        rw [hs, foldl_two_channel_str, hb]
        simp
  rw [h2, foldl_two_channel_ops]
  simp

theorem single_output_characterization (src dest : String) (excl : List String) (t : Dir) :
    save_files_as_text src dest excl t true
      = ([.write dest (joinAll ((found_files excl t).map fmt_single))],
         all_diags src excl t) := by
  rw [save_single_eq]
  unfold found_files
  rw [List.map_flatMap, joinAll_flatMap]
  have : ((t.walk excl []).map fun e => joinAll (e.files.map emit_str))
      = (t.walk excl []).map fun e => joinAll ((found_of_entry e).map fmt_single) := by
    apply List.map_congr_left
    intro e _
    exact files_emit_str_eq e.path e.files
  rw [this]

theorem per_file_ops_characterization (src dest : String) (excl : List String) (t : Dir) :
    save_files_as_text src dest excl t false
      = ((found_files excl t).map fmt_write, all_diags src excl t) := by
  rw [save_per_file_eq]
  unfold found_files
  rw [List.map_flatMap]
  have : ((t.walk excl []).flatMap fun e => e.files.flatMap emit_write)
      = (t.walk excl []).flatMap fun e => (found_of_entry e).map fmt_write := by
    apply List.flatMap_congr
    intro e _
    exact files_emit_write_eq e.path e.files
  rw [this]

theorem all_diags_characterization (src : String) (excl : List String) (t : Dir) :
    all_diags src excl t
      = (failing_files excl t).map fun q => read_diag src q.1 q.2 := by
  unfold all_diags failing_files
  rw [List.map_flatMap]
  apply List.flatMap_congr
  intro e _
  exact files_emit_diag_eq src e.path e.files

theorem applyOp_key_ne (s : DestState) (op : WriteOp) (k : String) (h : op.key ≠ k) :
    applyOp s op k = s k := by
  cases op with
  | write n c =>
      simp only [WriteOp.key] at h
      have hk : ¬(k = n) := fun hk => h hk.symm
      simp [applyOp, hk]
  | append n c =>
      simp only [WriteOp.key] at h
      have hk : ¬(k = n) := fun hk => h hk.symm
      simp [applyOp, hk]

theorem runOps_untouched (ops : List WriteOp) (s : DestState) (k : String)
    (h : ∀ op ∈ ops, op.key ≠ k) : runOps s ops k = s k := by
  induction ops generalizing s with
  | nil => rfl
  | cons op rest ih =>
      have h1 : op.key ≠ k := h op (List.mem_cons_self op rest)
      have h2 : ∀ o ∈ rest, o.key ≠ k := fun o ho => h o (List.mem_cons_of_mem op ho)
      calc runOps s (op :: rest) k = runOps (applyOp s op) rest k := rfl
        _ = applyOp s op k := ih (applyOp s op) h2
        _ = s k := applyOp_key_ne s op k h1

theorem applyOp_isSome (s : DestState) (op : WriteOp) (k : String)
    (h : (s k).isSome = true) : (applyOp s op k).isSome = true := by
  cases op with
  | write n c =>
      by_cases hk : k = n <;> simp [applyOp, hk, h]
  | append n c =>
      by_cases hk : k = n <;> simp [applyOp, hk, h]

theorem applyOp_key_isSome (s : DestState) (op : WriteOp) :
    (applyOp s op op.key).isSome = true := by
  cases op with
  | write n c => simp [applyOp, WriteOp.key]
  | append n c => simp [applyOp, WriteOp.key]

theorem runOps_isSome_mono (ops : List WriteOp) (s : DestState) (k : String)
    (h : (s k).isSome = true) : (runOps s ops k).isSome = true := by
  induction ops generalizing s with
  | nil => exact h
  | cons op rest ih => exact ih (applyOp s op) (applyOp_isSome s op k h)

theorem runOps_key_isSome (ops : List WriteOp) (s : DestState) (op : WriteOp)
    (hmem : op ∈ ops) : (runOps s ops op.key).isSome = true := by
  induction ops generalizing s with
  | nil => cases hmem
  | cons o rest ih =>
      rcases List.mem_cons.mp hmem with rfl | hmem
      · exact runOps_isSome_mono rest (applyOp s op) op.key (applyOp_key_isSome s op)
      · exact ih (applyOp s o) hmem

theorem runOps_map_write_unique {α : Type} (key : α → String) (val : α → String)
    (l : List α) (x : α) (s : DestState)
    (hmem : x ∈ l) (hcount : (l.map key).count (key x) = 1) :
    runOps s (l.map fun y => .write (key y) (val y)) (key x) = some (val x) := by
  induction l generalizing s with
  | nil => cases hmem
  | cons y rest ih =>
      rcases List.mem_cons.mp hmem with rfl | hmem
      · have hcount' : (rest.map key).count (key x) = 0 := by
          have h2 := hcount
          simp only [List.map_cons, List.count_cons, beq_self_eq_true, if_true] at h2
          omega
        have hnone : ∀ op ∈ rest.map fun z => WriteOp.write (key z) (val z),
            op.key ≠ key x := by
          intro op hop hkey
          rcases List.mem_map.mp hop with ⟨z, hz, rfl⟩
          simp only [WriteOp.key] at hkey
          have hin : key x ∈ rest.map key := by
            rw [← hkey]; exact List.mem_map_of_mem key hz
          rw [List.count_eq_zero] at hcount'
          exact hcount' hin
        calc runOps s ((x :: rest).map fun z => WriteOp.write (key z) (val z)) (key x)
            = runOps (applyOp s (.write (key x) (val x)))
                (rest.map fun z => WriteOp.write (key z) (val z)) (key x) := rfl
          _ = applyOp s (.write (key x) (val x)) (key x) :=
              runOps_untouched _ _ _ hnone
          _ = some (val x) := by simp [applyOp]
      · have hky : key y ≠ key x := by
          intro hk
          have h0 : (rest.map key).count (key x) = 0 := by
            have h2 := hcount
            simp only [List.map_cons, List.count_cons, hk, beq_self_eq_true,
              if_true] at h2
            omega
          rw [List.count_eq_zero] at h0
          exact h0 (List.mem_map_of_mem key hmem)
        have hcount' : (rest.map key).count (key x) = 1 := by
          have hne : (key y == key x) = false := beq_eq_false_iff_ne.mpr hky
          have h2 := hcount
          simp only [List.map_cons, List.count_cons, hne, Bool.false_eq_true,
            if_false] at h2
          omega
        calc runOps s ((y :: rest).map fun z => WriteOp.write (key z) (val z)) (key x)
            = runOps (applyOp s (.write (key y) (val y)))
                (rest.map fun z => WriteOp.write (key z) (val z)) (key x) := rfl
          _ = some (val x) := ih (applyOp s (.write (key y) (val y))) hmem hcount'

/-- Last value written to key `k` by a list of truncating writes. -/
def lastWriteVal : List WriteOp → String → Option String
  | [], _ => none
  | op :: rest, k =>
      match lastWriteVal rest k with
      | some v => some v
      | none =>
          match op with
          | .write n c => if n = k then some c else none
          | .append _ _ => none

theorem runOps_all_writes (ops : List WriteOp) (s : DestState) (k : String)
    (h : ∀ op ∈ ops, op.isWrite = true) :
    runOps s ops k
      = match lastWriteVal ops k with
        | some v => some v
        | none => s k := by
  induction ops generalizing s with
  | nil => rfl
  | cons op rest ih =>
      have hrest : ∀ o ∈ rest, o.isWrite = true :=
        fun o ho => h o (List.mem_cons_of_mem op ho)
      cases op with
      | write n c =>
          calc runOps s (WriteOp.write n c :: rest) k
              = runOps (applyOp s (.write n c)) rest k := rfl
            _ = _ := by
                rw [ih _ hrest]
                cases hlv : lastWriteVal rest k with
                | some v => simp [lastWriteVal, hlv]
                | none =>
                    simp only [lastWriteVal, hlv]
                    by_cases hnk : n = k
                    · subst hnk; simp [applyOp]
                    · simp [applyOp, if_neg hnk]
                      intro hk; exact absurd hk.symm hnk
      | append n c =>
          have := h (.append n c) (List.mem_cons_self _ _)
          simp [WriteOp.isWrite] at this

theorem runOps_writes_idempotent (ops : List WriteOp) (s : DestState)
    (h : ∀ op ∈ ops, op.isWrite = true) :
    runOps (runOps s ops) ops = runOps s ops := by
  funext k
  rw [runOps_all_writes ops (runOps s ops) k h, runOps_all_writes ops s k h]
  cases hlv : lastWriteVal ops k with
  | some v => simp
  | none => simp [runOps_all_writes ops s k h, hlv]

mutual
theorem Dir.walk_no_excl (excl : List String) (path : List String) (d : Dir)
    (hp : ∀ s ∈ path, s ∉ excl) :
    ∀ e ∈ d.walk excl path, ∀ s ∈ e.path, s ∉ excl := by
  cases d with
  | node n subdirs files =>
    intro e he
    simp only [Dir.walk, List.mem_cons] at he
    rcases he with rfl | he
    · exact hp
    · exact DirList.walkList_no_excl excl path subdirs hp e he

theorem DirList.walkList_no_excl (excl : List String) (path : List String) (ds : DirList)
    (hp : ∀ s ∈ path, s ∉ excl) :
    ∀ e ∈ DirList.walk excl path ds, ∀ s ∈ e.path, s ∉ excl := by
  cases ds with
  | nil => intro e he; simp [DirList.walk] at he
  | cons d rest =>
    intro e he
    simp only [DirList.walk, List.mem_append] at he
    rcases he with he | he
    · simp only [List.mem_ite_nil_left] at he
      obtain ⟨hd, he⟩ := he
      refine Dir.walk_no_excl excl (path ++ [d.dname]) d ?_ e he
      intro s hs
      rcases List.mem_append.mp hs with h | h
      · exact hp s h
      · simp only [List.mem_singleton] at h
        subst h
        simpa using hd
    · exact DirList.walkList_no_excl excl path rest hp e he
end

/-- Whether a read succeeded. -/
def is_ok : ReadResult → Bool
  | .ok _ => true
  | _ => false

mutual
/-- The tree with only the files satisfying `p` kept (directory
structure unchanged). -/
def Dir.filterFiles (p : SrcFile → Bool) : Dir → Dir
  | .node n subdirs files => .node n (DirList.filterFiles p subdirs) (files.filter p)

/-- `Dir.filterFiles` over a sibling list. -/
def DirList.filterFiles (p : SrcFile → Bool) : DirList → DirList
  | .nil => .nil
  | .cons d ds => .cons (d.filterFiles p) (DirList.filterFiles p ds)
end

mutual
theorem Dir.walk_filterFiles (p : SrcFile → Bool) (excl : List String)
    (path : List String) (d : Dir) :
    (d.filterFiles p).walk excl path
      = (d.walk excl path).map fun e => ⟨e.path, e.files.filter p⟩ := by
  cases d with
  | node n subdirs files =>
      simp only [Dir.filterFiles, Dir.walk, List.map_cons]
      rw [DirList.walkList_filterFiles p excl path subdirs]

theorem DirList.walkList_filterFiles (p : SrcFile → Bool) (excl : List String)
    (path : List String) (ds : DirList) :
    DirList.walk excl path (DirList.filterFiles p ds)
      = (DirList.walk excl path ds).map fun e => ⟨e.path, e.files.filter p⟩ := by
  cases ds with
  | nil => rfl
  | cons d rest =>
      simp only [DirList.filterFiles, DirList.walk, List.map_append]
      rw [DirList.walkList_filterFiles p excl path rest]
      have hname : (d.filterFiles p).dname = d.dname := by
        cases d; rfl
      rw [hname]
      by_cases hx : excl.contains d.dname = true
      · rw [if_pos hx, if_pos hx]
        simp
      · rw [if_neg hx, if_neg hx]
        rw [Dir.walk_filterFiles p excl (path ++ [d.dname]) d]
end

theorem found_of_files_filter_ok (path : List String) (files : List SrcFile) :
    found_of_files path (files.filter fun f => is_ok f.read) = found_of_files path files := by
  induction files with
  | nil => rfl
  | cons f fs ih =>
      unfold found_of_files at ih ⊢
      simp only [is_ok] at ih
      cases hr : f.read with
      | ok c =>
          cases h : eligible f.name <;>
            simp [List.filter_cons, hr, is_ok, List.filterMap_cons, h, ih]
      | decodeError =>
          cases h : eligible f.name <;>
            simp [List.filter_cons, hr, is_ok, List.filterMap_cons, h, ih]
      | ioError e =>
          cases h : eligible f.name <;>
            simp [List.filter_cons, hr, is_ok, List.filterMap_cons, h, ih]

theorem found_files_filter_ok (excl : List String) (t : Dir) :
    found_files excl (t.filterFiles fun f => is_ok f.read) = found_files excl t := by
  unfold found_files
  rw [Dir.walk_filterFiles]
  rw [List.flatMap_map]
  apply List.flatMap_congr
  intro e _
  exact found_of_files_filter_ok e.path e.files

theorem found_of_files_path (path : List String) (files : List SrcFile) (fd : Found)
    (h : fd ∈ found_of_files path files) : fd.path = path := by
  unfold found_of_files at h
  rcases List.mem_filterMap.mp h with ⟨f, hf, hsome⟩
  by_cases hel : eligible f.name = true
  · rw [if_pos hel] at hsome
    cases hread : f.read with
    | ok c =>
        rw [hread] at hsome
        cases hsome
        rfl
    | decodeError => rw [hread] at hsome; cases hsome
    | ioError e => rw [hread] at hsome; cases hsome
  · rw [if_neg hel] at hsome; cases hsome

/-- Scenario tree of the specification: `root/a.py` (content `x=1`),
`root/sub/b.py` (content `y=2`), `root/target/c.py` (content `z=3`). -/
def t_demo : Dir :=
  .node "root"
    (.cons (.node "sub" .nil [⟨"b.py", .ok "y=2"⟩])
      (.cons (.node "target" .nil [⟨"c.py", .ok "z=3"⟩]) .nil))
    [⟨"a.py", .ok "x=1"⟩]

/-- A tree with two eligible files of the same base name in different
subdirectories: `root/a/x.py` (content `1`) and `root/b/x.py`
(content `2`). -/
def t_collision : Dir :=
  .node "root"
    (.cons (.node "a" .nil [⟨"x.py", .ok "1"⟩])
      (.cons (.node "b" .nil [⟨"x.py", .ok "2"⟩]) .nil))
    []

/-- C2: in every mode and for every excluded directory name, no file
beneath a directory with that name appears in any output: every walk
entry's relative path is free of excluded names (the traversal prunes
excluded children before descending and never visits their subtrees),
and hence every aggregated file lies outside every excluded directory. -/
theorem walk_never_visits_excluded (excl : List String) (t : Dir) :
    (∀ e ∈ t.walk excl [], ∀ s ∈ e.path, s ∉ excl) ∧
    (∀ fd ∈ found_files excl t, ∀ s ∈ fd.path, s ∉ excl) := by
  have hwalk : ∀ e ∈ t.walk excl [], ∀ s ∈ e.path, s ∉ excl :=
    Dir.walk_no_excl excl [] t (by simp)
  refine ⟨hwalk, ?_⟩
  intro fd hfd s hs
  unfold found_files at hfd
  rcases List.mem_flatMap.mp hfd with ⟨e, he, hfe⟩
  have hpath : fd.path = e.path := found_of_files_path e.path e.files fd hfe
  exact hwalk e he s (hpath ▸ hs)

/-- Witness: in the scenario tree with exclude set `target`, the walk
entry for `sub` is visited and its path contains no excluded name. -/
theorem walk_never_visits_excluded_witness :
    (⟨["sub"], [⟨"b.py", .ok "y=2"⟩]⟩ : WalkEntry) ∈ t_demo.walk ["target"] [] ∧
    "sub" ∈ ["sub"] ∧ "sub" ∉ ["target"] :=
  ⟨by decide, by decide,
    (walk_never_visits_excluded ["target"] t_demo).1
      ⟨["sub"], [⟨"b.py", .ok "y=2"⟩]⟩ (by decide) "sub" (by decide)⟩

/-- C1 fails as stated: in per-file mode, when two eligible files in
different directories share a base name, the later one overwrites the
earlier one's destination file, so the earlier file's content appears in
no destination file at all.  Here `a/x.py` (content `1`) is eligible,
readable and outside every excluded directory, yet after the run no
destination file holds `1`. -/
theorem per_file_collision_loses_content :
    (⟨["a"], "x.py", "1"⟩ : Found) ∈ found_files [] t_collision ∧
    ∀ k, runOps emptyState (save_files_as_text "src" "dest" [] t_collision false).1 k
        ≠ some "1" := by
  refine ⟨by decide, ?_⟩
  intro k
  have hops : (save_files_as_text "src" "dest" [] t_collision false).1
      = [.write "x.py.txt" "1", .write "x.py.txt" "2"] := by decide
  rw [hops]
  by_cases hk : k = "x.py.txt"
  · subst hk; decide
  · simp [runOps, applyOp, emptyState, hk]

/-- C1 (amended): every eligible readable file outside excluded
directories appears exactly once with its full content in single-file
mode, unconditionally; in per-file mode the same holds provided the
eligible files' destination names (base name plus `.txt`) are pairwise
distinct — when base names collide, only the file latest in traversal
order survives. -/
theorem eligible_files_appear_exactly_once (src dest : String) (excl : List String)
    (t : Dir) (s : DestState) :
    ((save_files_as_text src dest excl t true).1
      = [.write dest (joinAll ((found_files excl t).map fmt_single))]) ∧
    (((found_files excl t).map fun fd => fd.name ++ ".txt").Nodup →
      ∀ fd ∈ found_files excl t,
        runOps s (save_files_as_text src dest excl t false).1 (fd.name ++ ".txt")
          = some fd.content) := by
  constructor
  · rw [single_output_characterization]
  · intro hnodup fd hfd
    have hops : (save_files_as_text src dest excl t false).1
        = (found_files excl t).map fun x => WriteOp.write (x.name ++ ".txt") x.content := by
      rw [per_file_ops_characterization]
      rfl
    rw [hops]
    have hcount : ((found_files excl t).map fun x => x.name ++ ".txt").count
        (fd.name ++ ".txt") = 1 :=
      List.count_eq_one_of_mem hnodup
        (List.mem_map_of_mem (fun x => x.name ++ ".txt") hfd)
    exact runOps_map_write_unique (fun x => x.name ++ ".txt") (fun x => x.content)
      (found_files excl t) fd s hfd hcount

/-- Witness: in the scenario tree the destination names are distinct, and
`a.py`'s content is found at `a.py.txt` after a per-file run. -/
theorem eligible_files_appear_exactly_once_witness :
    ((found_files ["target"] t_demo).map fun fd => fd.name ++ ".txt").Nodup ∧
    runOps emptyState (save_files_as_text "src" "dest" ["target"] t_demo false).1
        ("a.py" ++ ".txt") = some "x=1" :=
  ⟨by decide,
    (eligible_files_appear_exactly_once "src" "dest" ["target"] t_demo emptyState).2
      (by decide) ⟨[], "a.py", "x=1"⟩ (by decide)⟩

/-- C3 fails as stated: the round-trip guarantee breaks when another
eligible file later in traversal order shares the base name — after a
per-file run on the collision tree, `x.py.txt` holds `2`, not the
content `1` of the earlier file `a/x.py`. -/
theorem per_file_roundtrip_collision_fails :
    (⟨["a"], "x.py", "1"⟩ : Found) ∈ found_files [] t_collision ∧
    runOps emptyState (save_files_as_text "src" "dest" [] t_collision false).1
        ("x.py" ++ ".txt") ≠ some "1" :=
  ⟨by decide, by decide⟩

/-- C3 (amended): for every eligible readable file whose destination
name `<base>.txt` no other eligible file shares, a per-file run leaves
that destination file holding exactly the file's decoded content. -/
theorem per_file_roundtrip (src dest : String) (excl : List String) (t : Dir)
    (s : DestState) (fd : Found) (hmem : fd ∈ found_files excl t)
    (hunique : ((found_files excl t).map fun x => x.name ++ ".txt").count
        (fd.name ++ ".txt") = 1) :
    runOps s (save_files_as_text src dest excl t false).1 (fd.name ++ ".txt")
      = some fd.content := by
  have hops : (save_files_as_text src dest excl t false).1
      = (found_files excl t).map fun x => WriteOp.write (x.name ++ ".txt") x.content := by
    rw [per_file_ops_characterization]
    rfl
  rw [hops]
  exact runOps_map_write_unique (fun x => x.name ++ ".txt") (fun x => x.content)
    (found_files excl t) fd s hmem hunique

/-- Witness: in the scenario tree, `b.py.txt` is unique and holds `y=2`. -/
theorem per_file_roundtrip_witness :
    (⟨["sub"], "b.py", "y=2"⟩ : Found) ∈ found_files ["target"] t_demo ∧
    runOps emptyState (save_files_as_text "src" "dest" ["target"] t_demo false).1
        ("b.py" ++ ".txt") = some "y=2" :=
  ⟨by decide,
    per_file_roundtrip "src" "dest" ["target"] t_demo emptyState ⟨["sub"], "b.py", "y=2"⟩
      (by decide) (by decide)⟩

/-- C4: running single-file mode or per-file mode twice in succession
over an unchanged tree produces byte-identical destination output:
every destination file is opened with truncation, so the second run's
writes reproduce the first run's state exactly. -/
theorem run_twice_idempotent (src dest : String) (excl : List String)
    (t : Dir) (s : DestState) :
    runOps (runOps s (save_files_as_text src dest excl t false).1)
        (save_files_as_text src dest excl t false).1
      = runOps s (save_files_as_text src dest excl t false).1 ∧
    runOps (runOps s (save_files_as_text src dest excl t true).1)
        (save_files_as_text src dest excl t true).1
      = runOps s (save_files_as_text src dest excl t true).1 := by
  constructor
  · apply runOps_writes_idempotent
    intro op hop
    have h := per_file_ops_characterization src dest excl t
    rw [h] at hop
    simp only [] at hop
    rcases List.mem_map.mp hop with ⟨fd, _, rfl⟩
    rfl
  · apply runOps_writes_idempotent
    intro op hop
    have h := single_output_characterization src dest excl t
    rw [h] at hop
    simp only [List.mem_singleton] at hop
    subst hop
    rfl

/-- A tree with one top-level module: `root/m/b.py` (content `B`) and no
root-level files. -/
def t_module : Dir :=
  .node "root" (.cons (.node "m" .nil [⟨"b.py", .ok "B"⟩]) .nil) []

/-- C6: single-file mode opens the destination exactly once per run with
truncation (the run's whole effect is one truncating write to the
destination path), and its content is, for each eligible readable file
in traversal order: the base name, the fixed suffix `.txt`, a line
break, a blank line, the full decoded content, a line break, a
separator of exactly twenty dashes, and a line break. -/
theorem single_file_output_format (src dest : String) (excl : List String) (t : Dir) :
    save_files_as_text src dest excl t true
      = ([.write dest (joinAll ((found_files excl t).map fun fd =>
            fd.name ++ ".txt" ++ "\n\n" ++ fd.content ++ "\n"
              ++ "--------------------" ++ "\n"))],
         all_diags src excl t) ∧
    dashes20 = "--------------------" := by
  have hd : dashes20 = "--------------------" := by decide
  refine ⟨?_, hd⟩
  rw [single_output_characterization]
  have hmap : (found_files excl t).map fmt_single
      = (found_files excl t).map (fun fd =>
          fd.name ++ ".txt" ++ "\n\n" ++ fd.content ++ "\n"
            ++ "--------------------" ++ "\n") := by
    apply List.map_congr_left
    intro fd _
    unfold fmt_single
    rw [hd]
  rw [hmap]

/-- C7: in per-module mode, every eligible readable file in a proper
subdirectory contributes one append, routed to the destination file
named after the first component of the entry's relative path plus
`.txt`, whose content lists for each file: the relative path, a line
break, a blank line, the content, a line break, the literal line `---`
and a line break; eligible root-level files are written verbatim to
their own `<base name>.txt` instead. -/
theorem by_modules_routing_and_format (src : String) (excl : List String) (t : Dir) :
    (save_files_as_text_by_modules src excl t).1
      = (t.walk excl []).flatMap (fun e =>
          match e.path with
          | [] => (found_of_entry e).map fun fd =>
              WriteOp.write (fd.name ++ ".txt") fd.content
          | seg :: _ =>
              [WriteOp.append (seg ++ ".txt")
                (joinAll ((found_of_entry e).map fun fd =>
                  path_join (fd.path ++ [fd.name]) ++ "\n\n" ++ fd.content
                    ++ "\n---\n"))]) := by
  have h := save_by_modules_eq src excl t
  rw [h]
  apply List.flatMap_congr
  intro e _
  unfold bm_ops
  cases hp : e.path with
  | nil => rfl
  | cons seg rest => rfl

/-- The per-module run with the subfolder open's fallibility made
explicit.  In `project_as_text_by_modules.py` the statement
`open(subfolder_file_path, 'a', encoding='utf-8')` stands outside the
per-file try/except, so when that open raises — modelled by its
destination name lying in `bad` — the whole run aborts there; per-file
reads keep their try/except as in the infallible model.  The walk list
is processed in order; the result is the destination effects and
diagnostics, or the name of the subfolder destination file whose open
aborted the run. -/
def by_modules_io_go (bad : List String) (src_dir : String) :
    List WalkEntry → List WriteOp × List String →
      Except String (List WriteOp × List String)
  | [], acc => .ok acc
  | e :: rest, acc =>
      match e.path with
      | [] =>
          by_modules_io_go bad src_dir rest (e.files.foldl (per_file_step src_dir []) acc)
      | _ :: _ =>
          if bad.contains (first_component e.path ++ ".txt") then
            .error (first_component e.path ++ ".txt")
          else
            let r := e.files.foldl (module_entry_step src_dir e.path) ("", [])
            by_modules_io_go bad src_dir rest
              (acc.1 ++ [.append (first_component e.path ++ ".txt") r.1], acc.2 ++ r.2)

/-- `save_files_as_text(src_dir, dest_dir, exclude_dirs)` from
`project_as_text_by_modules.py` with fallible subfolder opens: `bad`
lists the destination names whose `'a'`-mode open fails. -/
def save_files_as_text_by_modules_io (bad : List String) (src_dir : String)
    (exclude_dirs : List String) (tree : Dir) :
    Except String (List WriteOp × List String) :=
  by_modules_io_go bad src_dir (tree.walk exclude_dirs []) ([], [])

theorem by_modules_io_go_no_failure (src : String) (l : List WalkEntry)
    (acc : List WriteOp × List String) :
    by_modules_io_go [] src l acc
      = .ok (l.foldl (fun acc e =>
          match e.path with
          | [] => e.files.foldl (per_file_step src []) acc
          | _ :: _ =>
              let r := e.files.foldl (module_entry_step src e.path) ("", [])
              (acc.1 ++ [.append (first_component e.path ++ ".txt") r.1],
                acc.2 ++ r.2)) acc) := by
  induction l generalizing acc with
  | nil => rfl
  | cons e rest ih =>
      cases hp : e.path with
      | nil =>
          simp only [by_modules_io_go, hp, List.foldl_cons]
          exact ih _
      | cons seg r2 =>
          simp only [by_modules_io_go, hp, List.foldl_cons]
          rw [if_neg]
          · exact ih _
          · simp

/-- When no destination open fails, the fallible per-module run
completes and produces exactly the infallible run's effects and
diagnostics. -/
theorem by_modules_io_no_failure (src : String) (excl : List String) (t : Dir) :
    save_files_as_text_by_modules_io [] src excl t
      = .ok (save_files_as_text_by_modules src excl t) := by
  unfold save_files_as_text_by_modules_io save_files_as_text_by_modules
  exact by_modules_io_go_no_failure src (t.walk excl []) ([], [])

theorem by_modules_io_go_error (bad : List String) (src : String) (err : String) :
    ∀ (l : List WalkEntry) (acc : List WriteOp × List String),
      by_modules_io_go bad src l acc = .error err →
      ∃ e ∈ l, e.path ≠ [] ∧
        bad.contains (first_component e.path ++ ".txt") = true ∧
        err = first_component e.path ++ ".txt" := by
  intro l
  induction l with
  | nil =>
      intro acc hgo
      simp [by_modules_io_go] at hgo
  | cons e rest ih =>
      intro acc hgo
      cases hp : e.path with
      | nil =>
          simp only [by_modules_io_go, hp] at hgo
          rcases ih _ hgo with ⟨x, hx, h1, h2, h3⟩
          exact ⟨x, List.mem_cons_of_mem e hx, h1, h2, h3⟩
      | cons seg r2 =>
          simp only [by_modules_io_go, hp] at hgo
          by_cases hb : bad.contains (first_component (seg :: r2) ++ ".txt") = true
          · rw [if_pos hb] at hgo
            have herr : err = first_component (seg :: r2) ++ ".txt" :=
              (Except.error.inj hgo).symm
            refine ⟨e, List.mem_cons_self e rest, ?_, ?_, ?_⟩
            · rw [hp]; simp
            · rw [hp]; exact hb
            · rw [hp]; exact herr
          · rw [if_neg hb] at hgo
            rcases ih _ hgo with ⟨x, hx, h1, h2, h3⟩
            exact ⟨x, List.mem_cons_of_mem e hx, h1, h2, h3⟩

/-- C8 fails as stated: its fatal-condition enumeration omits the
per-module subfolder destination open.  `open(subfolder_file_path, 'a')`
stands outside the per-file try/except, so its failure aborts the run:
with the `'a'`-mode open of `m.txt` failing, the per-module run over the
one-module tree aborts — neither destination-directory creation nor a
single-file destination stream is involved — while the same run with
every open succeeding completes normally. -/
theorem by_modules_subfolder_open_abort :
    save_files_as_text_by_modules_io ["m.txt"] "src" [] t_module
        = .error "m.txt" ∧
    save_files_as_text_by_modules_io [] "src" [] t_module
        = .ok (save_files_as_text_by_modules "src" [] t_module) :=
  ⟨rfl, rfl⟩

/-- C8 (amended): in every mode, a failing read of an eligible file
never aborts the run — the run emits exactly one diagnostic per failing
eligible file, in traversal order, while every other eligible readable
file is still processed (one truncating write each in per-file mode).
The fatal conditions are the destination-side ones: destination
directory creation, opening the single-file destination stream, and —
in per-module mode — opening a subfolder destination file, whose `'a'`
open stands outside the per-file try/except: a per-module run aborts
only when such an open fails, and completes with the infallible
effects when none does. -/
theorem per_file_errors_isolated (src dest : String) (excl : List String) (t : Dir) :
    (save_files_as_text src dest excl t true).2
        = (failing_files excl t).map (fun q => read_diag src q.1 q.2) ∧
    (save_files_as_text src dest excl t false).2
        = (failing_files excl t).map (fun q => read_diag src q.1 q.2) ∧
    (save_files_as_text_by_modules src excl t).2
        = (failing_files excl t).map (fun q => read_diag src q.1 q.2) ∧
    (save_files_as_text src dest excl t false).1
        = (found_files excl t).map fmt_write ∧
    save_files_as_text_by_modules_io [] src excl t
        = .ok (save_files_as_text_by_modules src excl t) ∧
    (∀ bad err, save_files_as_text_by_modules_io bad src excl t = .error err →
        ∃ e ∈ t.walk excl [], e.path ≠ [] ∧
          bad.contains (first_component e.path ++ ".txt") = true ∧
          err = first_component e.path ++ ".txt") := by
  refine ⟨?_, ?_, ?_, ?_, ?_, ?_⟩
  · rw [save_single_eq]
    exact all_diags_characterization src excl t
  · rw [save_per_file_eq]
    exact all_diags_characterization src excl t
  · rw [save_by_modules_eq]
    exact all_diags_characterization src excl t
  · rw [per_file_ops_characterization]
  · exact by_modules_io_no_failure src excl t
  · intro bad err h
    exact by_modules_io_go_error bad src err (t.walk excl []) ([], []) h

/-- Witness: with the open of `m.txt` failing, the per-module run over
the one-module tree aborts, and the abort indeed stems from a visited
subdirectory's destination file. -/
theorem per_file_errors_isolated_witness :
    save_files_as_text_by_modules_io ["m.txt"] "src" [] t_module
        = .error "m.txt" ∧
    ∃ e ∈ t_module.walk [] [], e.path ≠ [] ∧
      (["m.txt"] : List String).contains (first_component e.path ++ ".txt") = true ∧
      "m.txt" = first_component e.path ++ ".txt" :=
  ⟨rfl,
    (per_file_errors_isolated "src" "dest" [] t_module).2.2.2.2.2
      ["m.txt"] "m.txt" rfl⟩

/-- C9: a failing eligible file writes nothing at all to the single-file
destination stream — no header, no partial content, no separator: the
destination effects of a single-file run equal those of the run over the
tree with every failing file removed (the source file is read to
completion before the first write of its entry). -/
theorem failed_reads_write_nothing (src dest : String) (excl : List String) (t : Dir) :
    (save_files_as_text src dest excl t true).1
      = (save_files_as_text src dest excl (t.filterFiles fun f => is_ok f.read) true).1 := by
  have h1 := single_output_characterization src dest excl t
  have h2 := single_output_characterization src dest excl (t.filterFiles fun f => is_ok f.read)
  rw [h1, h2]
  rw [found_files_filter_ok]

/-- A tree with an empty top-level subdirectory `m` and no files. -/
def t_empty_mod : Dir :=
  .node "root" (.cons (.node "m" .nil []) .nil) []

/-- C10: every visited directory other than the source root causes the
per-module run to open (and hence create) the destination file named
after the first component of its relative path plus `.txt`, even when
the directory contains no eligible files: the run's operations contain
an append to that key, so after the run the destination file exists. -/
theorem by_modules_touches_every_module_file (src : String) (excl : List String)
    (t : Dir) (s : DestState) (e : WalkEntry)
    (he : e ∈ t.walk excl []) (hne : e.path ≠ []) :
    (∃ c, WriteOp.append (first_component e.path ++ ".txt") c
        ∈ (save_files_as_text_by_modules src excl t).1) ∧
    (runOps s (save_files_as_text_by_modules src excl t).1
        (first_component e.path ++ ".txt")).isSome = true := by
  obtain ⟨seg, rest, hp⟩ : ∃ seg rest, e.path = seg :: rest := by
    cases hpath : e.path with
    | nil => exact absurd hpath hne
    | cons a b => exact ⟨a, b, rfl⟩
  have hop : WriteOp.append (first_component e.path ++ ".txt")
      (joinAll ((found_of_entry e).map fmt_module))
      ∈ (save_files_as_text_by_modules src excl t).1 := by
    have h := save_by_modules_eq src excl t
    rw [h]
    apply List.mem_flatMap.mpr
    refine ⟨e, he, ?_⟩
    unfold bm_ops
    rw [hp]
    exact List.mem_singleton.mpr rfl
  refine ⟨⟨joinAll ((found_of_entry e).map fmt_module), hop⟩, ?_⟩
  have h := runOps_key_isSome (save_files_as_text_by_modules src excl t).1 s _ hop
  simpa [WriteOp.key] using h

/-- Witness: the empty module `m` still yields a destination file
`m.txt` after a per-module run from an empty destination. -/
theorem by_modules_touches_every_module_file_witness :
    (⟨["m"], []⟩ : WalkEntry) ∈ t_empty_mod.walk [] [] ∧
    ((⟨["m"], []⟩ : WalkEntry).path ≠ []) ∧
    (runOps emptyState (save_files_as_text_by_modules "src" [] t_empty_mod).1
        (first_component ["m"] ++ ".txt")).isSome = true :=
  ⟨by decide, by decide,
    (by_modules_touches_every_module_file "src" [] t_empty_mod emptyState
      ⟨["m"], []⟩ (by decide) (by decide)).2⟩
